import Mathlib

/-!
Verification development for the markdown-cleanup / EPUB-build scripts.

The Python sources are shallowly embedded here: strings are modelled as
`List Char`, the filesystem image directory as a list of file names, and
the network as a boolean oracle (or, at the line-rewriting level, as a
download function of type `Str → Option Str`).  Every definition is
translated from the corresponding Python function; the doc comment of each
definition names its source.
-/

set_option maxRecDepth 200000

namespace MDClean

/-- Strings are modelled as lists of characters. -/
abbrev Str := List Char

/-- The literal `http`. -/
def httpStr : Str := ['h', 't', 't', 'p']

/-- The literal `images/`. -/
def imagesDirStr : Str := ['i', 'm', 'a', 'g', 'e', 's', '/']

/-- Characters stripped by Python `str.strip()` / `str.rstrip()` with no
argument (the ASCII whitespace characters). -/
def isPySpace (c : Char) : Bool :=
  c = ' ' || c = '\t' || c = '\n' || c = '\r' || c = '\x0b' || c = '\x0c'

/-- Python `str.lstrip()`. -/
def pyLstrip (s : Str) : Str := s.dropWhile isPySpace

/-- Python `str.rstrip()`. -/
def pyRstrip (s : Str) : Str := (s.reverse.dropWhile isPySpace).reverse

/-- Python `str.strip()`. -/
def pyStrip (s : Str) : Str := pyRstrip (pyLstrip s)

/-- Longest common prefix of two strings, by character comparison (the
inner `while` loop of `find_common_prefix`, lines 65-68 of
`clean_markdown.py`). -/
def lcp2 : Str → Str → Str
  | a :: as, b :: bs => if a = b then a :: lcp2 as bs else []
  | _, _ => []

/-- Longest common suffix of two strings, comparing characters from the end
(the inner `while` loop of `find_common_suffix`, lines 99-102 of
`clean_markdown.py`). -/
def lcs2 (a b : Str) : Str := (lcp2 a.reverse b.reverse).reverse

/-- The fold of `lcp2` over a name list: the loop of `find_common_prefix`
starting from `names[0]` (lines 61-71).  The early `break` on an empty
prefix is behaviourally identical to folding on. -/
def lcpFold : List Str → Str
  | [] => []
  | n :: ns => ns.foldl lcp2 n

/-- The fold of `lcs2` over a name list: the loop of `find_common_suffix`
starting from `names[0]` (lines 95-105). -/
def lcsFold : List Str → Str
  | [] => []
  | n :: ns => ns.foldl lcs2 n

/-- The separator string `" - "`. -/
def sepStr : Str := [' ', '-', ' ']

/-- Index of the first occurrence of `pat` in `s` together with the text
before and after it (Python `str.find` plus slicing).  Returns the text
before the occurrence and the text after it. -/
def splitFirstSub (pat : Str) : Str → Option (Str × Str)
  | [] => none
  | c :: rest =>
    if pat.isPrefixOf (c :: rest) then some ([], (c :: rest).drop pat.length)
    else
      match splitFirstSub pat rest with
      | some (a, u) => some (c :: a, u)
      | none => none

/-- Index of the first occurrence of `pat` in `s` (Python `str.find`,
`none` standing for `-1`). -/
def findSub (pat : Str) : Str → Option Nat
  | [] => none
  | c :: rest =>
    if pat.isPrefixOf (c :: rest) then some 0
    else (findSub pat rest).map (· + 1)

/-- Index of the last occurrence of `pat` in `s` (Python `str.rfind`,
`none` standing for `-1`). -/
def rfindSub (pat : Str) : Str → Option Nat
  | [] => none
  | c :: rest =>
    match rfindSub pat rest with
    | some k => some (k + 1)
    | none => if pat.isPrefixOf (c :: rest) then some 0 else none

/-- The word-boundary cleanup of `find_common_prefix` (lines 73-78 of
`clean_markdown.py`): when `" - "` occurs in the prefix, truncate to end
right after the last occurrence, but only when that occurrence starts at a
positive index (`if last_separator > 0`). -/
def trimAtLastSep (p : Str) : Str :=
  match rfindSub sepStr p with
  | some k => if 0 < k then p.take (k + 3) else p
  | none => p

/-- The word-boundary cleanup of `find_common_suffix` (lines 107-112 of
`clean_markdown.py`): when `" - "` occurs in the suffix, truncate to start
at the first occurrence. -/
def trimAtFirstSep (s : Str) : Str :=
  match findSub sepStr s with
  | some k => s.drop k
  | none => s

/-- Python `filename.replace(".md", "")`: removes every occurrence of the
substring `.md`, scanning left to right (used at lines 54, 89 and 120 of
`clean_markdown.py`). -/
def stripMd : Str → Str
  | '.' :: 'm' :: 'd' :: rest => stripMd rest
  | c :: rest => c :: stripMd rest
  | [] => []

/-- `find_common_prefix` on names with extensions already removed (lines
59-80 of `clean_markdown.py`): fold of `lcp2`, separator cleanup, and the
`len(prefix) > 3` gate. -/
def findCommonPrefixCore (names : List Str) : Str :=
  match names with
  | [] => []
  | _ :: _ =>
    let p := trimAtLastSep (lcpFold names)
    if 3 < p.length then p else []

/-- `find_common_suffix` on names with extensions already removed (lines
94-114 of `clean_markdown.py`). -/
def findCommonSuffixCore (names : List Str) : Str :=
  match names with
  | [] => []
  | _ :: _ =>
    let s := trimAtFirstSep (lcsFold names)
    if 3 < s.length then s else []

/-- `find_common_prefix` (lines 48-80 of `clean_markdown.py`): strips
`.md` occurrences from each filename, then runs the core computation. -/
def findCommonPrefixAll (filenames : List Str) : Str :=
  findCommonPrefixCore (filenames.map stripMd)

/-- `find_common_suffix` (lines 83-114 of `clean_markdown.py`). -/
def findCommonSuffixAll (filenames : List Str) : Str :=
  findCommonSuffixCore (filenames.map stripMd)

/-- `clean_filename` (lines 117-133 of `clean_markdown.py`): remove `.md`
occurrences, strip the common prefix when the name starts with it, strip
the common suffix when the name ends with it, trim whitespace, re-append
`.md`. -/
def cleanFilename (original pre suf : Str) : Str :=
  let c := stripMd original
  let c := if pre ≠ [] ∧ pre.isPrefixOf c then c.drop pre.length else c
  let c := if suf ≠ [] ∧ suf.isSuffixOf c then c.take (c.length - suf.length) else c
  pyStrip c ++ ['.', 'm', 'd']

/-- Python `f"{n:02d}"`: decimal digits zero-padded on the left to width
two. -/
def fmt2 (n : Nat) : Str :=
  if n < 10 then '0' :: Nat.toDigits 10 n else Nat.toDigits 10 n

/-- The output filenames produced by `clean_markdown_files` (lines 276-301
of `clean_markdown.py`) for a book whose markdown files, in ascending
modification-time order, are `files`: the n-th output name is
`f"{n:02d} - {cleaned}"` with `n` the 1-based position. -/
def outputFilenames (files : List Str) : List Str :=
  let pre := findCommonPrefixAll files
  let suf := findCommonSuffixAll files
  (List.range files.length).map fun i =>
    fmt2 (i + 1) ++ [' ', '-', ' '] ++ cleanFilename (files.getD i []) pre suf

/-! ## Image Fetcher: URL parsing, hashing and the download model -/

/-- Characters up to (excluding) the first occurrence of `c`. -/
def takeUntilChar (c : Char) (s : Str) : Str := s.takeWhile (fun x => x ≠ c)

/-- Characters allowed in a URL scheme (`urllib.parse.scheme_chars`). -/
def isSchemeChar (c : Char) : Bool := c.isAlphanum || c = '+' || c = '-' || c = '.'

/-- The scheme-stripping step of `urllib.parse.urlsplit`: when a `:` is
preceded by a valid scheme (first character alphabetic, all characters
scheme characters), drop the scheme and the colon. -/
def stripScheme (u : Str) : Str :=
  match findSub [':'] u with
  | some i =>
    if 0 < i ∧ (u.take i).all isSchemeChar ∧ (u.headD ' ').isAlpha
    then u.drop (i + 1) else u
  | none => u

/-- The netloc-stripping step of `urllib.parse.urlsplit`: after a leading
`//`, the authority extends to the next `/`, `?` or `#`. -/
def stripNetloc (u : Str) : Str :=
  if ['/', '/'].isPrefixOf u then
    (u.drop 2).dropWhile (fun c => ¬(c = '/' ∨ c = '?' ∨ c = '#'))
  else u

/-- The params-stripping step of `urllib.parse.urlparse` (`_splitparams`):
a `;` searched from the last `/` cuts off the params. -/
def stripParams (p : Str) : Str :=
  match rfindSub ['/'] p with
  | some k =>
    match findSub [';'] (p.drop k) with
    | some j => p.take (k + j)
    | none => p
  | none =>
    match findSub [';'] p with
    | some j => p.take j
    | none => p

/-- `urlparse(url).path` as used by `download_image` (lines 143-144 of
`clean_markdown.py`): fragment, scheme, netloc, query and params removed. -/
def urlPath (url : Str) : Str :=
  stripParams (takeUntilChar '?' (stripNetloc (stripScheme (takeUntilChar '#' url))))

/-- The extension component of `os.path.splitext` (posixpath): the part
from the last dot of the basename, unless the basename consists only of
leading dots up to there. -/
def splitExtExt (p : Str) : Str :=
  match rfindSub ['.'] p with
  | none => []
  | some dot =>
    let sep1 : Nat := match rfindSub ['/'] p with | none => 0 | some s => s + 1
    if sep1 ≤ dot ∧ ((p.drop sep1).take (dot - sep1)).any (fun c => c ≠ '.') then
      p.drop dot
    else []

/-- The extension chosen by `download_image` (lines 143-149 of
`clean_markdown.py`): the extension of the URL path, defaulting to `.jpg`
when the path has none. -/
def extOfUrl (url : Str) : Str :=
  let e := splitExtExt (urlPath url)
  if e = [] then ['.', 'j', 'p', 'g'] else e

/-- UTF-8 encoding of one character (Python `str.encode()`). -/
def utf8Char (c : Char) : List Nat :=
  let n := c.toNat
  if n < 128 then [n]
  else if n < 2048 then [192 + n / 64, 128 + n % 64]
  else if n < 65536 then [224 + n / 4096, 128 + n / 64 % 64, 128 + n % 64]
  else [240 + n / 262144, 128 + n / 4096 % 64, 128 + n / 64 % 64, 128 + n % 64]

/-- UTF-8 encoding of a string (Python `url.encode()`). -/
def utf8Encode : Str → List Nat
  | [] => []
  | c :: rest => utf8Char c ++ utf8Encode rest

/-- Addition modulo `2^32`. -/
def add32 (a b : Nat) : Nat := (a + b) % 4294967296

/-- Bitwise complement on 32 bits. -/
def not32 (x : Nat) : Nat := 4294967295 ^^^ x

/-- Left rotation of a 32-bit value. -/
def rotl32 (x s : Nat) : Nat := ((x <<< s) ||| (x >>> (32 - s))) % 4294967296

/-- The MD5 sine-derived constant table. -/
def md5K : List Nat :=
  [0xd76aa478, 0xe8c7b756, 0x242070db, 0xc1bdceee,
   0xf57c0faf, 0x4787c62a, 0xa8304613, 0xfd469501,
   0x698098d8, 0x8b44f7af, 0xffff5bb1, 0x895cd7be,
   0x6b901122, 0xfd987193, 0xa679438e, 0x49b40821,
   0xf61e2562, 0xc040b340, 0x265e5a51, 0xe9b6c7aa,
   0xd62f105d, 0x02441453, 0xd8a1e681, 0xe7d3fbc8,
   0x21e1cde6, 0xc33707d6, 0xf4d50d87, 0x455a14ed,
   0xa9e3e905, 0xfcefa3f8, 0x676f02d9, 0x8d2a4c8a,
   0xfffa3942, 0x8771f681, 0x6d9d6122, 0xfde5380c,
   0xa4beea44, 0x4bdecfa9, 0xf6bb4b60, 0xbebfbc70,
   0x289b7ec6, 0xeaa127fa, 0xd4ef3085, 0x04881d05,
   0xd9d4d039, 0xe6db99e5, 0x1fa27cf8, 0xc4ac5665,
   0xf4292244, 0x432aff97, 0xab9423a7, 0xfc93a039,
   0x655b59c3, 0x8f0ccc92, 0xffeff47d, 0x85845dd1,
   0x6fa87e4f, 0xfe2ce6e0, 0xa3014314, 0x4e0811a1,
   0xf7537e82, 0xbd3af235, 0x2ad7d2bb, 0xeb86d391]

/-- The MD5 per-round shift amounts. -/
def md5S : List Nat :=
  [7, 12, 17, 22, 7, 12, 17, 22, 7, 12, 17, 22, 7, 12, 17, 22,
   5, 9, 14, 20, 5, 9, 14, 20, 5, 9, 14, 20, 5, 9, 14, 20,
   4, 11, 16, 23, 4, 11, 16, 23, 4, 11, 16, 23, 4, 11, 16, 23,
   6, 10, 15, 21, 6, 10, 15, 21, 6, 10, 15, 21, 6, 10, 15, 21]

/-- The MD5 round mixers F, G, H, I selected by round index. -/
def md5Mix (i b c d : Nat) : Nat :=
  if i < 16 then (b &&& c) ||| (not32 b &&& d)
  else if i < 32 then (d &&& b) ||| (not32 d &&& c)
  else if i < 48 then b ^^^ c ^^^ d
  else c ^^^ (b ||| not32 d)

/-- The MD5 message-word index per round. -/
def md5Idx (i : Nat) : Nat :=
  if i < 16 then i
  else if i < 32 then (5 * i + 1) % 16
  else if i < 48 then (3 * i + 5) % 16
  else 7 * i % 16

/-- One MD5 operation on the running state. -/
def md5Round (m : List Nat) (st : Nat × Nat × Nat × Nat) (i : Nat) :
    Nat × Nat × Nat × Nat :=
  let (a, b, c, d) := st
  let f := add32 (add32 (add32 (md5Mix i b c d) a) (md5K.getD i 0)) (m.getD (md5Idx i) 0)
  (d, add32 b (rotl32 f (md5S.getD i 0)), b, c)

/-- One 16-word MD5 block. -/
def md5Block (st : Nat × Nat × Nat × Nat) (m : List Nat) : Nat × Nat × Nat × Nat :=
  let r := (List.range 64).foldl (md5Round m) st
  (add32 r.1 st.1, add32 r.2.1 st.2.1, add32 r.2.2.1 st.2.2.1, add32 r.2.2.2 st.2.2.2)

/-- Eight little-endian bytes of a 64-bit value. -/
def le8 (x : Nat) : List Nat :=
  [x % 256, x / 256 % 256, x / 65536 % 256, x / 16777216 % 256,
   x / 4294967296 % 256, x / 1099511627776 % 256,
   x / 281474976710656 % 256, x / 72057594037927936 % 256]

/-- MD5 padding: `0x80`, zeros to 56 mod 64, then the bit length in eight
little-endian bytes. -/
def md5Pad (msg : List Nat) : List Nat :=
  let l := msg.length
  let k := (56 + 64 - (l + 1) % 64) % 64
  msg ++ [128] ++ List.replicate k 0 ++ le8 (l * 8 % 18446744073709551616)

/-- Bytes grouped into little-endian 32-bit words. -/
def toWords : List Nat → List Nat
  | b0 :: b1 :: b2 :: b3 :: rest =>
    (b0 + 256 * b1 + 65536 * b2 + 16777216 * b3) :: toWords rest
  | _ => []

/-- Words grouped into 16-word blocks (fuelled structural recursion; the
fuel is the list length, which always suffices). -/
def chunks16Go : Nat → List Nat → List (List Nat)
  | _, [] => []
  | 0, _ :: _ => []
  | fuel + 1, w :: ws => ((w :: ws).take 16) :: chunks16Go fuel ((w :: ws).drop 16)

/-- Words grouped into 16-word blocks. -/
def chunks16 (l : List Nat) : List (List Nat) := chunks16Go l.length l

/-- Four little-endian bytes of a 32-bit value. -/
def le4 (x : Nat) : List Nat := [x % 256, x / 256 % 256, x / 65536 % 256, x / 16777216 % 256]

/-- The 16-byte MD5 digest of a byte string (`hashlib.md5(...).digest()`). -/
def md5Bytes (msg : List Nat) : List Nat :=
  let st := (chunks16 (toWords (md5Pad msg))).foldl md5Block
    (0x67452301, 0xefcdab89, 0x98badcfe, 0x10325476)
  le4 st.1 ++ le4 st.2.1 ++ le4 st.2.2.1 ++ le4 st.2.2.2

/-- The lowercase hex digit for `n % 16`. -/
def hexDigitChar (n : Nat) : Char := "0123456789abcdef".toList.getD (n % 16) '0'

/-- Two lowercase hex digits of a byte. -/
def byteToHex (b : Nat) : Str := [hexDigitChar (b / 16), hexDigitChar b]

/-- Lowercase hex rendering of a byte string. -/
def bytesToHex : List Nat → Str
  | [] => []
  | b :: bs => byteToHex b ++ bytesToHex bs

/-- `hashlib.md5(msg).hexdigest()`. -/
def md5Hex (msg : List Nat) : Str := bytesToHex (md5Bytes msg)

/-- The local filename computed by `download_image` (lines 140-151 of
`clean_markdown.py`): `f"image_{url_hash}{ext}"` with `url_hash` the first
12 hex characters of the MD5 of the URL and `ext` from the URL path. -/
def imageFilename (url : Str) : Str :=
  "image_".toList ++ (md5Hex (utf8Encode url)).take 12 ++ extOfUrl url

/-- The images directory and network counter: the filesystem/network state
`download_image` interacts with.  `files` is the set of names present in
`images_dir`; `fetches` counts calls of `urllib.request.urlretrieve`. -/
structure FetchState where
  files : List Str
  fetches : Nat

/-- `download_image` (lines 136-162 of `clean_markdown.py`) as a state
transition.  `netOk` tells whether `urlretrieve` would succeed; any
failure is caught and reported as `none` (the `except` branch returns
`None`). -/
def downloadImage (netOk : Bool) (url : Str) (st : FetchState) :
    Option Str × FetchState :=
  let filename := imageFilename url
  if st.files.contains filename then (some filename, st)
  else if netOk then (some filename, ⟨filename :: st.files, st.fetches + 1⟩)
  else (none, ⟨st.files, st.fetches + 1⟩)

/-! ## Content Cleaner: the three regular-expression passes over a line

The downloads performed during line rewriting are abstracted by a download
function `dl : Str → Option Str`; `download_image` always returns the
deterministic name `imageFilename url` on success and `None` on failure,
so the two oracles of interest are `dlOk` and `dlFail` below. -/

/-- Matcher for `!\[(.*?)\]\((.*?)\)` (the image pattern of line 224 of
`clean_markdown.py`) anchored at the start of `s`: the lazy groups give the
text up to the first `](` and then up to the first `)`; `.` does not match
a newline.  Returns `(alt, url, rest)`. -/
def matchImageAt : Str → Option (Str × Str × Str)
  | '!' :: '[' :: t =>
    (match splitFirstSub [']', '('] t with
     | some (alt, u) =>
       if alt.contains '\n' then none
       else
         match splitFirstSub [')'] u with
         | some (url, rest) => if url.contains '\n' then none else some (alt, url, rest)
         | none => none
     | none => none)
  | _ => none

/-- Matcher for `\[(.*?)\]\((.*?)\)` (the link pattern of line 248,
without its lookbehind, which the scanner applies) anchored at the start
of `s`.  Returns `(text, url, rest)`. -/
def matchLinkAt : Str → Option (Str × Str × Str)
  | '[' :: t =>
    (match splitFirstSub [']', '('] t with
     | some (text, u) =>
       if text.contains '\n' then none
       else
         match splitFirstSub [')'] u with
         | some (url, rest) => if url.contains '\n' then none else some (text, url, rest)
         | none => none
     | none => none)
  | _ => none

/-- The `https?://` alternative at the head of `s`. -/
def schemeOf (s : Str) : Option (Str × Str) :=
  if (httpStr ++ [':', '/', '/']).isPrefixOf s then some (httpStr ++ [':', '/', '/'], s.drop 7)
  else if (httpStr ++ ['s', ':', '/', '/']).isPrefixOf s then some (httpStr ++ ['s', ':', '/', '/'], s.drop 8)
  else none

/-- Attempt to read `\)\]\((https?://[^\)]+)\)` at the head of `s`: the
closing of the inner image, the opening of the outer link URL, a scheme,
and a non-empty greedy run of non-`)` characters up to a `)`.  Returns the
URL group and the rest. -/
def nestedHere (s : Str) : Option (Str × Str) :=
  if [')', ']', '('].isPrefixOf s then
    match schemeOf (s.drop 3) with
    | some (sch, w) =>
      (match splitFirstSub [')'] w with
       | some (run, rest) => if run = [] then none else some (sch ++ run, rest)
       | none => none)
    | none => none
  else none

/-- The lazy search for the `b` group of the nested pattern: the shortest
`b` (not crossing a newline) such that `\)\]\((https?://[^\)]+)\)`
follows.  Returns `(b, url, rest)`. -/
def nestedTail : Str → Option (Str × Str × Str)
  | [] => none
  | c :: rest =>
    match nestedHere (c :: rest) with
    | some (url, r2) => some ([], url, r2)
    | none =>
      if c = '\n' then none
      else
        match nestedTail rest with
        | some (b, url, r2) => some (c :: b, url, r2)
        | none => none

/-- The lazy search for the `a` group of the nested pattern: the shortest
`a` (not crossing a newline) followed by `](` and a successful tail.
Returns `(a, b, url, rest)`. -/
def nestedA : Str → Option (Str × Str × Str × Str)
  | [] => none
  | c :: rest =>
    match (if [']', '('].isPrefixOf (c :: rest) then nestedTail ((c :: rest).drop 2) else none) with
    | some (b, url, r2) => some ([], b, url, r2)
    | none =>
      if c = '\n' then none
      else
        match nestedA rest with
        | some (a, b, url, r2) => some (c :: a, b, url, r2)
        | none => none

/-- Matcher for the nested markdownload pattern
`\[(!\[.*?\]\(.*?\))\]\((https?://[^\)]+)\)` of line 204 of
`clean_markdown.py`, anchored at the start of `s`.  Returns
`(group1, group2, rest)` where `group1` is the inner image markup and
`group2` the outer URL. -/
def matchNestedAt : Str → Option (Str × Str × Str)
  | '[' :: '!' :: '[' :: t =>
    (match nestedA t with
     | some (a, b, url, rest) =>
       some ('!' :: '[' :: a ++ ']' :: '(' :: b ++ [')'], url, rest)
     | none => none)
  | _ => none

/-- The search `re.search(r'!\[(.*?)\]', image_markdown)` of line 191 of
`clean_markdown.py`, anchored at the start. -/
def searchAltAt : Str → Option Str
  | '!' :: '[' :: t =>
    (match splitFirstSub [']'] t with
     | some (alt, _) => if alt.contains '\n' then none else some alt
     | none => none)
  | _ => none

/-- The search of line 191 over the whole string (first position with a
match wins). -/
def searchAlt : Str → Option Str
  | [] => none
  | c :: rest =>
    match searchAltAt (c :: rest) with
    | some a => some a
    | none => searchAlt rest

/-- The six extensions recognised by `replace_link` (line 236 of
`clean_markdown.py`). -/
def imgExts : List Str :=
  [".jpg".toList, ".jpeg".toList, ".png".toList, ".gif".toList, ".webp".toList, ".svg".toList]

/-- Python `str.lower()` (ASCII behaviour suffices here). -/
def lowerStr (s : Str) : Str := s.map Char.toLower

/-- `replace_image` (lines 207-222 of `clean_markdown.py`) applied to one
match with groups `alt` and `url`: a non-`http` URL keeps the whole match,
an `http` URL is downloaded and rewritten to `![alt](images/<name>)`, and
a failed download degrades to the alt text. -/
def imageRepl (dl : Str → Option Str) (alt url : Str) : Str :=
  if httpStr.isPrefixOf url then
    match dl url with
    | some f => '!' :: '[' :: alt ++ ']' :: '(' :: imagesDirStr ++ f ++ [')']
    | none => alt
  else '!' :: '[' :: alt ++ ']' :: '(' :: url ++ [')']

/-- `replace_link` (lines 227-245 of `clean_markdown.py`) applied to one
match with groups `text` and `url`: anchors are kept verbatim; an `http`
URL whose lowercased text ends with a recognised image extension is
downloaded and rewritten to image markup (alt text on failure); every
other link is replaced by its visible text. -/
def linkRepl (dl : Str → Option Str) (text url : Str) : Str :=
  if ['#'].isPrefixOf url then '[' :: text ++ ']' :: '(' :: url ++ [')']
  else if httpStr.isPrefixOf url ∧ imgExts.any (fun e => e.isSuffixOf (lowerStr url)) then
    match dl url with
    | some f => '!' :: '[' :: text ++ ']' :: '(' :: imagesDirStr ++ f ++ [')']
    | none => text
  else text

/-- `replace_nested_image` (lines 186-201 of `clean_markdown.py`) applied
to one match: the alt text is recovered from the inner image markup, the
outer URL is downloaded, and the line is rewritten to plain local image
markup (alt text on failure). -/
def nestedRepl (dl : Str → Option Str) (g1 g2 : Str) : Str :=
  let altText := (searchAlt g1).getD []
  if httpStr.isPrefixOf g2 then
    match dl g2 with
    | some f => '!' :: '[' :: altText ++ ']' :: '(' :: imagesDirStr ++ f ++ [')']
    | none => altText
  else '[' :: g1 ++ ']' :: '(' :: g2 ++ [')']

/-- `re.sub` scan for the nested pattern (the fuel, set to the string
length, always suffices since every match consumes at least one
character). -/
def subNestedGo (dl : Str → Option Str) : Nat → Str → Str
  | 0, s => s
  | _, [] => []
  | fuel + 1, c :: rest =>
    match matchNestedAt (c :: rest) with
    | some (g1, g2, after) => nestedRepl dl g1 g2 ++ subNestedGo dl fuel after
    | none => c :: subNestedGo dl fuel rest

/-- Line 204 of `clean_markdown.py`: `re.sub` of the nested pattern. -/
def subNested (dl : Str → Option Str) (s : Str) : Str := subNestedGo dl s.length s

/-- `re.sub` scan for the image pattern. -/
def subImageGo (dl : Str → Option Str) : Nat → Str → Str
  | 0, s => s
  | _, [] => []
  | fuel + 1, c :: rest =>
    match matchImageAt (c :: rest) with
    | some (alt, url, after) => imageRepl dl alt url ++ subImageGo dl fuel after
    | none => c :: subImageGo dl fuel rest

/-- Line 224 of `clean_markdown.py`: `re.sub` of the image pattern. -/
def subImage (dl : Str → Option Str) (s : Str) : Str := subImageGo dl s.length s

/-- `re.sub` scan for the link pattern, with the negative lookbehind
`(?<!!)` checked against the character of the original string preceding
the scan position (`prev`; every match ends in `)`). -/
def subLinkGo (dl : Str → Option Str) : Nat → Option Char → Str → Str
  | 0, _, s => s
  | _, _, [] => []
  | fuel + 1, prev, c :: rest =>
    match (if prev = some '!' then none else matchLinkAt (c :: rest)) with
    | some (text, url, after) => linkRepl dl text url ++ subLinkGo dl fuel (some ')') after
    | none => c :: subLinkGo dl fuel (some c) rest

/-- Line 248 of `clean_markdown.py`: `re.sub` of the link pattern with its
lookbehind. -/
def subLink (dl : Str → Option Str) (s : Str) : Str := subLinkGo dl s.length none s

/-- The three substitution passes applied to one line (lines 204, 224 and
248 of `clean_markdown.py`, in source order). -/
def cleanLine (dl : Str → Option Str) (l : Str) : Str :=
  subLink dl (subImage dl (subNested dl l))

/-- All image references `![alt](url)` of a text, scanned left to right
without overlap (the same matcher as `replace_image` uses). -/
def imageRefsGo : Nat → Str → List (Str × Str)
  | 0, _ => []
  | _, [] => []
  | fuel + 1, c :: rest =>
    match matchImageAt (c :: rest) with
    | some (alt, url, after) => (alt, url) :: imageRefsGo fuel after
    | none => imageRefsGo fuel rest

/-- All image references of a text. -/
def imageRefs (s : Str) : List (Str × Str) := imageRefsGo s.length s

/-- Python `content.split('\n')`. -/
def splitNL : Str → List Str
  | [] => [[]]
  | c :: rest =>
    if c = '\n' then [] :: splitNL rest
    else
      match splitNL rest with
      | t :: ts => (c :: t) :: ts
      | [] => [[c]]

/-- The blank-line collapsing `re.sub(r'\n\n\n+', '\n\n', content)` of
line 254 of `clean_markdown.py`.  The regex replaces every maximal run of
three or more newlines by two; equivalently, every newline already
preceded by two consecutive newlines is dropped, which is what this
structural scan does (`n` counts the immediately preceding newlines,
capped at two). -/
def collapseGo : Nat → Str → Str
  | _, [] => []
  | n, c :: rest =>
    if c = '\n' then
      if 2 ≤ n then collapseGo n rest else c :: collapseGo (n + 1) rest
    else c :: collapseGo 0 rest

/-- Line 254 of `clean_markdown.py`. -/
def collapseNL (s : Str) : Str := collapseGo 0 s

/-- Lines 252-257 of `clean_markdown.py`: join, collapse blank lines,
strip trailing whitespace and end with exactly one newline. -/
def finalizeContent (s : Str) : Str := pyRstrip (collapseNL s) ++ ['\n']

/-- The per-line loop of `clean_content` (lines 173-250 of
`clean_markdown.py`): the first heading line is replaced by `# title`,
leading blank lines are dropped, and every other line goes through the
three substitution passes.  `found` tracks `found_first_heading` and
`started` tracks whether any line was emitted (`cleaned_lines` being
non-empty). -/
def cleanLinesGo (dl : Str → Option Str) (title : Str) :
    Bool → Bool → List Str → List Str
  | _, _, [] => []
  | found, started, l :: ls =>
    if found = false ∧ ['#', ' '].isPrefixOf (pyStrip l) then
      ('#' :: ' ' :: title) :: cleanLinesGo dl title true true ls
    else if started = false ∧ pyStrip l = [] then
      cleanLinesGo dl title found started ls
    else cleanLine dl l :: cleanLinesGo dl title found true ls

/-- `clean_content` (lines 165-259 of `clean_markdown.py`). -/
def cleanContent (dl : Str → Option Str) (content title : Str) : Str :=
  finalizeContent (List.intercalate ['\n'] (cleanLinesGo dl title false false (splitNL content)))

/-- The download oracle of a run in which every fetch succeeds:
`download_image` then returns the deterministic computed name. -/
def dlOk : Str → Option Str := fun u => some (imageFilename u)

/-- The download oracle of a run in which every fetch fails. -/
def dlFail : Str → Option Str := fun _ => none

/-! ## EPUB Assembler: cover selection -/

/-- The `'images/' in img_path` test and `img_path.split('images/')[-1]`
of lines 33-35 of `build_epub.py`: the text after the last occurrence of
`images/`, or the whole path when it does not occur. -/
def imagesSplitPath (p : Str) : Str :=
  match rfindSub imagesDirStr p with
  | some k => p.drop (k + 7)
  | none => p

/-- `find_first_image` (lines 26-36 of `build_epub.py`): the URL group of
the first image-markdown match in the content, normalised by
`imagesSplitPath`; `None` when the content has no image reference. -/
def findFirstImage : Str → Option Str
  | [] => none
  | c :: rest =>
    match matchImageAt (c :: rest) with
    | some (_, url, _) => some (imagesSplitPath url)
    | none => findFirstImage rest

/-- The cover extensions probed by lines 75-80 of `build_epub.py`, in
probe order. -/
def coverExts : List Str := [".webp".toList, ".png".toList, ".jpg".toList, ".jpeg".toList]

/-- The image-file extensions accepted by the directory fallback of line
94 of `build_epub.py`. -/
def epubImgExts : List Str := [".jpg".toList, ".jpeg".toList, ".png".toList, ".webp".toList]

/-- Lexicographic comparison of strings by code point (Python `sorted` on
path names). -/
def strLe : Str → Str → Bool
  | [], _ => true
  | _ :: _, [] => false
  | a :: as, b :: bs => if a = b then strLe as bs else decide (a.toNat < b.toNat)

/-- Insertion into a `strLe`-sorted list. -/
def insertStr (x : Str) : List Str → List Str
  | [] => [x]
  | y :: ys => if strLe x y then x :: y :: ys else y :: insertStr x ys

/-- Stable ascending sort by `strLe` (Python `sorted`). -/
def sortStrs : List Str → List Str
  | [] => []
  | x :: xs => insertStr x (sortStrs xs)

/-- The per-chapter probe of the cover scan (lines 83-90 of
`build_epub.py`): the loop `cover_image_name = find_first_image(content);
if cover_image_name: break` stops only on a truthy name, so both `None`
and the empty string (as produced by `![a]()` or `![x](images/)`) count
as no find and the scan continues with the next chapter. -/
def findFirstImageTruthy (content : Str) : Option Str :=
  match findFirstImage content with
  | some img => if img = [] then none else some img
  | none => none

/-- The cover-selection logic of `create_epub` (lines 72-97 of
`build_epub.py`).  `files` is the listing of the images directory (a
missing directory is the empty listing) and `chapters` the chapter
contents in chapter order.  The three rules are tried in order: a file
literally named `cover.<ext>`, the first truthy image name referenced in
any chapter, and the alphabetically first image file in the directory
(the `if not cover_image_name` guard of line 93 likewise treats an
empty-string name from the chapter scan as no cover). -/
def selectCover (files : List Str) (chapters : List Str) : Option Str :=
  match coverExts.find? (fun e => files.contains ("cover".toList ++ e)) with
  | some e => some ("cover".toList ++ e)
  | none =>
    match chapters.findSome? findFirstImageTruthy with
    | some img => some img
    | none =>
      (sortStrs (files.filter fun f => epubImgExts.contains (lowerStr (splitExtExt f)))).head?

/-! ## Spec-described variants used for refinement comparison

These two definitions follow the words of the specification (not the
source); they exist only to be compared with the source-derived
definitions above. -/

/-- The claim text of the prefix computation: the longest common prefix,
truncated to end right after the last `" - "` whenever it contains that
substring, discarded when shorter than four characters. -/
def claimPrefixOfNames (names : List Str) : Str :=
  match names with
  | [] => []
  | _ :: _ =>
    let p := lcpFold names
    let p2 :=
      match rfindSub sepStr p with
      | some k => p.take (k + 3)
      | none => p
    if p2.length < 4 then [] else p2

/-- The claim text of filename cleaning: strip only the trailing `.md`
extension. -/
def stripExtMd (s : Str) : Str :=
  if ".md".toList.isSuffixOf s then s.take (s.length - 3) else s

/-- The claim text of the per-book output filenames: numbering plus the
cleaned name, where the cleaned name strips only the `.md` extension (and
the common prefix and suffix are likewise detected on extension-stripped
names). -/
def claimOutputFilenames (files : List Str) : List Str :=
  let pre := findCommonPrefixCore (files.map stripExtMd)
  let suf := findCommonSuffixCore (files.map stripExtMd)
  (List.range files.length).map fun i =>
    fmt2 (i + 1) ++ [' ', '-', ' '] ++
      (let c := stripExtMd (files.getD i [])
       let c := if pre ≠ [] ∧ pre.isPrefixOf c then c.drop pre.length else c
       let c := if suf ≠ [] ∧ suf.isSuffixOf c then c.take (c.length - suf.length) else c
       pyStrip c ++ ['.', 'm', 'd'])

/-! ## Helper lemmas -/

theorem prefix_cons_self {a : Char} {t l : Str} (h : t <+: l) : a :: t <+: a :: l := by
  obtain ⟨r, hr⟩ := h
  exact ⟨r, by simp [hr]⟩

theorem lcp2_prefix_left : ∀ a b : Str, lcp2 a b <+: a
  | [], _ => by simp [lcp2]
  | _ :: _, [] => by simp [lcp2]
  | x :: as, y :: bs => by
    simp only [lcp2]
    split
    · next h => exact h ▸ prefix_cons_self (lcp2_prefix_left as bs)
    · exact List.nil_prefix

theorem lcp2_prefix_right : ∀ a b : Str, lcp2 a b <+: b
  | [], _ => by simp [lcp2]
  | _ :: _, [] => by simp [lcp2]
  | x :: as, y :: bs => by
    simp only [lcp2]
    split
    · next h => exact h ▸ prefix_cons_self (lcp2_prefix_right as bs)
    · exact List.nil_prefix

theorem prefix_lcp2 : ∀ t a b : Str, t <+: a → t <+: b → t <+: lcp2 a b
  | [], _, _, _, _ => List.nil_prefix
  | x :: ts, a, b, ha, hb => by
    obtain ⟨ra, hra⟩ := ha
    obtain ⟨rb, hrb⟩ := hb
    subst hra hrb
    simp only [List.cons_append, lcp2, if_pos rfl]
    exact prefix_cons_self (prefix_lcp2 ts _ _ (List.prefix_append _ _) (List.prefix_append _ _))

theorem foldl_lcp2_acc : ∀ (ns : List Str) (acc : Str), ns.foldl lcp2 acc <+: acc
  | [], acc => List.prefix_refl acc
  | n :: ns, acc => (foldl_lcp2_acc ns (lcp2 acc n)).trans (lcp2_prefix_left acc n)

theorem foldl_lcp2_mem : ∀ (ns : List Str) (acc n : Str), n ∈ ns → ns.foldl lcp2 acc <+: n := by
  intro ns
  induction ns with
  | nil => intro acc n h; cases h
  | cons m ms ih =>
    intro acc n h
    rcases List.mem_cons.mp h with h | h
    · subst h
      exact (foldl_lcp2_acc ms (lcp2 acc n)).trans (lcp2_prefix_right acc n)
    · exact ih (lcp2 acc m) n h

theorem prefix_foldl_lcp2 : ∀ (ns : List Str) (acc t : Str),
    t <+: acc → (∀ n ∈ ns, t <+: n) → t <+: ns.foldl lcp2 acc := by
  intro ns
  induction ns with
  | nil => intro acc t h _; exact h
  | cons m ms ih =>
    intro acc t h hm
    exact ih (lcp2 acc m) t (prefix_lcp2 t acc m h (hm m (List.mem_cons_self m ms)))
      fun n hn => hm n (List.mem_cons_of_mem m hn)

theorem lcpFold_prefix_mem (names : List Str) (n : Str) (h : n ∈ names) :
    lcpFold names <+: n := by
  cases names with
  | nil => cases h
  | cons m ms =>
    rcases List.mem_cons.mp h with h | h
    · exact h ▸ foldl_lcp2_acc ms m
    · exact foldl_lcp2_mem ms m n h

theorem prefix_lcpFold (names : List Str) (t : Str) (hne : names ≠ [])
    (h : ∀ n ∈ names, t <+: n) : t <+: lcpFold names := by
  cases names with
  | nil => exact absurd rfl hne
  | cons m ms =>
    exact prefix_foldl_lcp2 ms m t (h m (List.mem_cons_self m ms))
      fun n hn => h n (List.mem_cons_of_mem m hn)

theorem lcs2_suffix_left (a b : Str) : lcs2 a b <:+ a := by
  have h := lcp2_prefix_left a.reverse b.reverse
  have h2 := List.reverse_suffix.mpr h
  rw [lcs2]
  simpa using h2

theorem lcs2_suffix_right (a b : Str) : lcs2 a b <:+ b := by
  have h := lcp2_prefix_right a.reverse b.reverse
  have h2 := List.reverse_suffix.mpr h
  rw [lcs2]
  simpa using h2

theorem suffix_lcs2 (t a b : Str) (ha : t <:+ a) (hb : t <:+ b) : t <:+ lcs2 a b := by
  have h := prefix_lcp2 t.reverse a.reverse b.reverse
    (List.reverse_prefix.mpr ha) (List.reverse_prefix.mpr hb)
  have h2 := List.reverse_suffix.mpr h
  rw [lcs2]
  simpa using h2

theorem foldl_lcs2_acc : ∀ (ns : List Str) (acc : Str), ns.foldl lcs2 acc <:+ acc
  | [], acc => List.suffix_refl acc
  | n :: ns, acc => (foldl_lcs2_acc ns (lcs2 acc n)).trans (lcs2_suffix_left acc n)

theorem foldl_lcs2_mem : ∀ (ns : List Str) (acc n : Str), n ∈ ns → ns.foldl lcs2 acc <:+ n := by
  intro ns
  induction ns with
  | nil => intro acc n h; cases h
  | cons m ms ih =>
    intro acc n h
    rcases List.mem_cons.mp h with h | h
    · subst h
      exact (foldl_lcs2_acc ms (lcs2 acc n)).trans (lcs2_suffix_right acc n)
    · exact ih (lcs2 acc m) n h

theorem suffix_foldl_lcs2 : ∀ (ns : List Str) (acc t : Str),
    t <:+ acc → (∀ n ∈ ns, t <:+ n) → t <:+ ns.foldl lcs2 acc := by
  intro ns
  induction ns with
  | nil => intro acc t h _; exact h
  | cons m ms ih =>
    intro acc t h hm
    exact ih (lcs2 acc m) t (suffix_lcs2 t acc m h (hm m (List.mem_cons_self m ms)))
      fun n hn => hm n (List.mem_cons_of_mem m hn)

theorem lcsFold_suffix_mem (names : List Str) (n : Str) (h : n ∈ names) :
    lcsFold names <:+ n := by
  cases names with
  | nil => cases h
  | cons m ms =>
    rcases List.mem_cons.mp h with h | h
    · exact h ▸ foldl_lcs2_acc ms m
    · exact foldl_lcs2_mem ms m n h

theorem suffix_lcsFold (names : List Str) (t : Str) (hne : names ≠ [])
    (h : ∀ n ∈ names, t <:+ n) : t <:+ lcsFold names := by
  cases names with
  | nil => exact absurd rfl hne
  | cons m ms =>
    exact suffix_foldl_lcs2 ms m t (h m (List.mem_cons_self m ms))
      fun n hn => h n (List.mem_cons_of_mem m hn)

theorem findSub_some (pat : Str) : ∀ (s : Str) (k : Nat), findSub pat s = some k →
    pat <+: s.drop k ∧ ∀ j, j < k → ¬ pat <+: s.drop j := by
  intro s
  induction s with
  | nil => intro k h; simp [findSub] at h
  | cons c rest ih =>
    intro k h
    by_cases hp : pat.isPrefixOf (c :: rest)
    · simp [findSub, hp] at h
      subst h
      exact ⟨List.isPrefixOf_iff_prefix.mp hp, fun j hj => absurd hj (Nat.not_lt_zero j)⟩
    · simp [findSub, hp] at h
      obtain ⟨k2, hk2, hk⟩ := h
      obtain ⟨h1, h2⟩ := ih k2 hk2
      subst hk
      refine ⟨h1, fun j hj => ?_⟩
      cases j with
      | zero => simpa using fun hc => hp (List.isPrefixOf_iff_prefix.mpr hc)
      | succ j2 => exact h2 j2 (by omega)

theorem rfindSub_none (pat : Str) (hpat : pat ≠ []) : ∀ (s : Str), rfindSub pat s = none →
    ∀ j, ¬ pat <+: s.drop j := by
  intro s
  induction s with
  | nil =>
    intro _ j h
    rw [List.drop_nil] at h
    exact hpat (List.prefix_nil.mp h)
  | cons c rest ih =>
    intro h j
    rw [rfindSub] at h
    rcases hr : rfindSub pat rest with _ | k
    · rw [hr] at h
      by_cases hp : pat.isPrefixOf (c :: rest)
      · simp [hp] at h
      · cases j with
        | zero => simpa using fun hc => hp (List.isPrefixOf_iff_prefix.mpr hc)
        | succ j2 => exact ih hr j2
    · rw [hr] at h
      simp at h

theorem rfindSub_some (pat : Str) (hpat : pat ≠ []) : ∀ (s : Str) (k : Nat),
    rfindSub pat s = some k →
    pat <+: s.drop k ∧ ∀ j, k < j → ¬ pat <+: s.drop j := by
  intro s
  induction s with
  | nil => intro k h; simp [rfindSub] at h
  | cons c rest ih =>
    intro k h
    rw [rfindSub] at h
    rcases hr : rfindSub pat rest with _ | k2
    · rw [hr] at h
      by_cases hp : pat.isPrefixOf (c :: rest)
      · simp [hp] at h
        subst h
        refine ⟨List.isPrefixOf_iff_prefix.mp hp, fun j hj => ?_⟩
        cases j with
        | zero => omega
        | succ j2 => exact rfindSub_none pat hpat rest hr j2
      · simp [hp] at h
    · rw [hr] at h
      simp at h
      subst h
      obtain ⟨h1, h2⟩ := ih k2 hr
      refine ⟨h1, fun j hj => ?_⟩
      cases j with
      | zero => omega
      | succ j2 => exact h2 j2 (by omega)

theorem bytesToHex_length : ∀ bs : List Nat, (bytesToHex bs).length = 2 * bs.length
  | [] => rfl
  | b :: bs => by
    simp [bytesToHex, byteToHex, bytesToHex_length bs]
    ring

theorem md5Bytes_length (msg : List Nat) : (md5Bytes msg).length = 16 := by
  simp [md5Bytes, le4]

theorem md5Hex_length (msg : List Nat) : (md5Hex msg).length = 32 := by
  simp [md5Hex, bytesToHex_length, md5Bytes_length]

theorem hexDigitChar_mem (n : Nat) : hexDigitChar n ∈ "0123456789abcdef".toList := by
  have h : n % 16 < 16 := Nat.mod_lt _ (by norm_num)
  have hall : ∀ k, k < 16 → ("0123456789abcdef".toList.getD k '0') ∈ "0123456789abcdef".toList := by
    decide
  exact hall (n % 16) h

theorem bytesToHex_mem : ∀ (bs : List Nat) (c : Char), c ∈ bytesToHex bs →
    c ∈ "0123456789abcdef".toList := by
  intro bs
  induction bs with
  | nil => intro c h; simp [bytesToHex] at h
  | cons b rest ih =>
    intro c h
    simp only [bytesToHex, byteToHex, List.cons_append, List.mem_cons] at h
    rcases h with h | h
    · exact h ▸ hexDigitChar_mem _
    · simp only [List.nil_append, List.mem_cons] at h
      rcases h with h | h
      · exact h ▸ hexDigitChar_mem _
      · exact ih c h

/-! ## Claim C1 -/

/-- C1, as stated, is false: the Content Cleaner keeps a pre-existing
local image reference unchanged, so its URL need not begin with
`images/`.  On the chapter `![a](local.png)` the cleaned output still
contains the reference `("a", "local.png")`, whose target does not start
with `images/`. -/
theorem claim1_counterexample :
    ("a".toList, "local.png".toList) ∈
      imageRefs (cleanContent dlOk "![a](local.png)".toList "T".toList) ∧
    imagesDirStr.isPrefixOf "local.png".toList = false := by
  constructor
  · decide
  · decide

/-- C1 (amended): every image reference the cleaner rewrites from a
remote (`http`) URL has a target beginning with `images/` (or, on
download failure, the markup degrades to the alt text); an image
reference whose URL does not start with `http` is left unchanged, and
its target may lie outside `images/`. -/
theorem claim1_main (dl : Str → Option Str) (alt url : Str) :
    (httpStr.isPrefixOf url = false →
       imageRepl dl alt url = '!' :: '[' :: alt ++ ']' :: '(' :: url ++ [')']) ∧
    (httpStr.isPrefixOf url = true → ∀ f, dl url = some f →
       ∃ tgt, imageRepl dl alt url = '!' :: '[' :: alt ++ ']' :: '(' :: tgt ++ [')'] ∧
         imagesDirStr.isPrefixOf tgt = true) ∧
    (httpStr.isPrefixOf url = true → dl url = none → imageRepl dl alt url = alt) := by
  refine ⟨fun h => ?_, fun h f hf => ?_, fun h hn => ?_⟩
  · simp [imageRepl, h]
  · refine ⟨imagesDirStr ++ f, by simp [imageRepl, h, hf], ?_⟩
    exact List.isPrefixOf_iff_prefix.mpr (List.prefix_append _ _)
  · simp [imageRepl, h, hn]

/-- Witness for `claim1_main` at concrete inputs. -/
theorem claim1_witness :
    imageRepl dlOk "a".toList "local.png".toList = "![a](local.png)".toList ∧
    imageRepl dlFail "a".toList "http://u/x.png".toList = "a".toList := by
  constructor
  · exact (claim1_main dlOk "a".toList "local.png".toList).1 (by decide)
  · exact (claim1_main dlFail "a".toList "http://u/x.png".toList).2.2 (by decide) rfl

/-! ## Claim C2 -/

/-- C2: the computed local filename is `image_` followed by a
deterministic 12-hex-character hash of the URL and the extension of the
URL path, `.jpg` when the path has none; and cleaning the input line
`![cat](http://x.com/a.png)` produces exactly
`![cat](images/image_427559590272.png)` (the hash of that URL being
`427559590272`). -/
theorem claim2_main (url : Str) :
    (∃ h, imageFilename url = "image_".toList ++ h ++ extOfUrl url ∧
       h.length = 12 ∧ ∀ c ∈ h, c ∈ "0123456789abcdef".toList) ∧
    (splitExtExt (urlPath url) = [] → extOfUrl url = ".jpg".toList) ∧
    (splitExtExt (urlPath url) ≠ [] → extOfUrl url = splitExtExt (urlPath url)) ∧
    cleanLine dlOk "![cat](http://x.com/a.png)".toList =
      "![cat](images/image_427559590272.png)".toList := by
  refine ⟨⟨(md5Hex (utf8Encode url)).take 12, rfl, ?_, ?_⟩, fun h => ?_, fun h => ?_, by decide⟩
  · rw [List.length_take, md5Hex_length]
    omega
  · intro c hc
    have hc2 : c ∈ md5Hex (utf8Encode url) := (List.take_prefix _ _).subset hc
    exact bytesToHex_mem _ c hc2
  · simp [extOfUrl, h]
  · simp [extOfUrl, h]

/-- Witness for `claim2_main` at concrete inputs. -/
theorem claim2_witness :
    extOfUrl "http://x.com".toList = ".jpg".toList ∧
    extOfUrl "http://x.com/a.png".toList = ".png".toList := by
  constructor
  · exact (claim2_main "http://x.com".toList).2.1 (by decide)
  · exact (claim2_main "http://x.com/a.png".toList).2.2.1 (by decide)

/-! ## Claim C3 -/

/-- C3: when a file with the computed name already exists in the images
directory, `download_image` performs no network access and returns the
existing name unchanged; and starting from a state without the file, two
successive runs with the same URL perform exactly one fetch (the second
run hits the cache and leaves the state untouched). -/
theorem claim3_main (url : Str) (st : FetchState) :
    (st.files.contains (imageFilename url) = true →
       ∀ netOk, downloadImage netOk url st = (some (imageFilename url), st)) ∧
    (st.files.contains (imageFilename url) = false →
       (downloadImage true url st).1 = some (imageFilename url) ∧
       (downloadImage true url st).2.fetches = st.fetches + 1 ∧
       (downloadImage true url (downloadImage true url st).2).1 =
         some (imageFilename url) ∧
       (downloadImage true url (downloadImage true url st).2).2 =
         (downloadImage true url st).2) := by
  constructor
  · intro h netOk
    show (if st.files.contains (imageFilename url) = true then _ else _) = _
    rw [if_pos h]
  · intro h
    have h1 : downloadImage true url st =
        (some (imageFilename url), ⟨imageFilename url :: st.files, st.fetches + 1⟩) := by
      show (if st.files.contains (imageFilename url) = true then _ else _) = _
      rw [if_neg (by rw [h]; exact Bool.false_ne_true), if_pos rfl]
    have hc : (imageFilename url :: st.files).contains (imageFilename url) = true := by
      simp [List.contains_cons]
    have h2 : downloadImage true url ⟨imageFilename url :: st.files, st.fetches + 1⟩ =
        (some (imageFilename url), ⟨imageFilename url :: st.files, st.fetches + 1⟩) := by
      show (if _ = true then _ else _) = _
      rw [if_pos hc]
    refine ⟨by rw [h1], by rw [h1], ?_, ?_⟩
    · rw [h1, h2]
    · rw [h1, h2]

/-- Witness for `claim3_main`: a fresh state, two runs, one fetch. -/
theorem claim3_witness :
    (downloadImage true "u".toList ⟨[], 0⟩).2.fetches = 0 + 1 ∧
    (downloadImage true "u".toList (downloadImage true "u".toList ⟨[], 0⟩).2).2 =
      (downloadImage true "u".toList ⟨[], 0⟩).2 := by
  have h := (claim3_main "u".toList ⟨[], 0⟩).2 (by decide)
  exact ⟨h.2.1, h.2.2.2⟩

/-! ## Claim C4 -/

/-- C4, as stated, is false: the code converts a link to an image only
when the URL starts with `http` and the whole lowercased URL (not the URL
path) ends with a recognised extension.  The link `[x](a.png)` has a
target whose path ends with `.png`, yet cleaning strips it to the bare
text `x`, leaving no image reference at all. -/
theorem claim4_counterexample :
    cleanLine dlOk "[x](a.png)".toList = "x".toList ∧
    splitExtExt (urlPath "a.png".toList) = ".png".toList ∧
    imageRefs (cleanLine dlOk "[x](a.png)".toList) = [] := by
  refine ⟨by decide, by decide, by decide⟩

/-- C4 (amended): for every non-image hyperlink match, an in-document
anchor target (starting `#`) is kept verbatim; a target that starts with
`http` and whose entire lowercased URL ends with one of `.jpg .jpeg .png
.gif .webp .svg` is converted to a downloaded local image reference (alt
text on download failure); every other link — including relative image
paths and http URLs whose extension is followed by further characters —
is replaced by its visible text; in particular
`[click here](http://example.com)` cleans to exactly `click here`. -/
theorem claim4_main (dl : Str → Option Str) (text url : Str) :
    (['#'].isPrefixOf url = true →
       linkRepl dl text url = '[' :: text ++ ']' :: '(' :: url ++ [')']) ∧
    (httpStr.isPrefixOf url = true →
       imgExts.any (fun e => e.isSuffixOf (lowerStr url)) = true →
       (∀ f, dl url = some f →
          linkRepl dl text url =
            '!' :: '[' :: text ++ ']' :: '(' :: imagesDirStr ++ f ++ [')']) ∧
       (dl url = none → linkRepl dl text url = text)) ∧
    (['#'].isPrefixOf url = false →
       ¬(httpStr.isPrefixOf url = true ∧
         imgExts.any (fun e => e.isSuffixOf (lowerStr url)) = true) →
       linkRepl dl text url = text) ∧
    cleanLine dlOk "[click here](http://example.com)".toList = "click here".toList := by
  refine ⟨fun h => ?_, fun h1 h2 => ?_, fun h1 h2 => ?_, by decide⟩
  · unfold linkRepl
    rw [if_pos h]
  · have hh : ¬(['#'].isPrefixOf url = true) := by
      obtain ⟨r, hr⟩ := List.isPrefixOf_iff_prefix.mp h1
      rw [← hr]
      intro hcon
      exact Bool.false_ne_true hcon
    refine ⟨fun f hf => ?_, fun hn => ?_⟩
    · unfold linkRepl
      rw [if_neg hh, if_pos ⟨h1, h2⟩, hf]
    · unfold linkRepl
      rw [if_neg hh, if_pos ⟨h1, h2⟩, hn]
  · have h1n : ¬(['#'].isPrefixOf url = true) := by simp [h1]
    unfold linkRepl
    rw [if_neg h1n, if_neg h2]

/-- Witness for `claim4_main` at concrete inputs. -/
theorem claim4_witness :
    linkRepl dlOk "t".toList "#sec".toList = "[t](#sec)".toList ∧
    linkRepl dlOk "t".toList "http://e.com".toList = "t".toList := by
  constructor
  · exact (claim4_main dlOk "t".toList "#sec".toList).1 (by decide)
  · exact (claim4_main dlOk "t".toList "http://e.com".toList).2.2.1 (by decide) (by decide)

/-! ## Claim C10 -/

/-- C10: a failed download is reported as `None` (never an exception —
the model is total), the image markup degrades to the bare alt text, a
link that would become an image degrades to its text, and the run
continues: a chapter with two failing images still cleans to completion
with both alt texts kept and later lines processed. -/
theorem claim10_main (alt text url : Str) (st : FetchState) :
    (st.files.contains (imageFilename url) = false →
       downloadImage false url st = (none, ⟨st.files, st.fetches + 1⟩)) ∧
    (httpStr.isPrefixOf url = true → imageRepl dlFail alt url = alt) ∧
    (httpStr.isPrefixOf url = true →
       imgExts.any (fun e => e.isSuffixOf (lowerStr url)) = true →
       linkRepl dlFail text url = text) ∧
    cleanContent dlFail "![a](http://u/a.png) and ![b](http://u/b.png)\nSecond line.".toList
      "T".toList = "a and b\nSecond line.\n".toList := by
  refine ⟨fun h => ?_, fun h => ?_, fun h1 h2 => ?_, by decide⟩
  · show (if st.files.contains (imageFilename url) = true then _ else _) = _
    rw [if_neg (by rw [h]; exact Bool.false_ne_true), if_neg (by simp)]
  · unfold imageRepl
    rw [if_pos h]
    rfl
  · have hh : ¬(['#'].isPrefixOf url = true) := by
      obtain ⟨r, hr⟩ := List.isPrefixOf_iff_prefix.mp h1
      rw [← hr]
      intro hcon
      exact Bool.false_ne_true hcon
    unfold linkRepl
    rw [if_neg hh, if_pos ⟨h1, h2⟩]
    rfl

/-- Witness for `claim10_main` at concrete inputs. -/
theorem claim10_witness :
    downloadImage false "u".toList ⟨[], 3⟩ = (none, ⟨[], 3 + 1⟩) ∧
    imageRepl dlFail "alt text".toList "https://u/p.png".toList = "alt text".toList := by
  have h := claim10_main "alt text".toList "t".toList "https://u/p.png".toList ⟨[], 3⟩
  refine ⟨?_, h.2.1 (by decide)⟩
  exact (claim10_main "alt text".toList "t".toList "u".toList ⟨[], 3⟩).1 (by decide)

/-! ## Claim C5 -/

/-- `f"{n:02d}"` renders exactly two characters for `n < 100`. -/
theorem fmt2_length : ∀ n, n < 100 → (fmt2 n).length = 2 := by decide

/-- C5, as stated, is false: the code truncates the common prefix at the
last `" - "` only when that occurrence starts at a positive index
(`if last_separator > 0`).  For the names `" - abX"`, `" - abY"` the
common prefix `" - ab"` contains `" - "` only at index 0; the claim says
it should be truncated to `" - "` and then discarded as shorter than four
characters, but the code returns `" - ab"` untruncated. -/
theorem claim5_counterexample :
    findCommonPrefixCore [" - abX".toList, " - abY".toList] = " - ab".toList ∧
    claimPrefixOfNames [" - abX".toList, " - abY".toList] = [] ∧
    " - ab".toList ≠ ([] : Str) := by
  refine ⟨by decide, by decide, by decide⟩

/-- C5 (amended): for every non-empty list of names, the computation
folds to the longest string that is a literal prefix of every name,
truncates it — whenever it contains `" - "` with the last occurrence
starting at a positive index — to end right after that last occurrence
(an occurrence starting the string triggers no truncation), and returns
the empty string whenever the result is at most three characters long;
hence a detected prefix shorter than four characters is never reported
(and so never stripped from any filename). -/
theorem claim5_main (names : List Str) (hne : names ≠ []) :
    (∀ n ∈ names, lcpFold names <+: n) ∧
    (∀ t, (∀ n ∈ names, t <+: n) → t <+: lcpFold names) ∧
    findCommonPrefixCore names =
      (if 3 < (trimAtLastSep (lcpFold names)).length
       then trimAtLastSep (lcpFold names) else []) ∧
    (findCommonPrefixCore names ≠ [] → 4 ≤ (findCommonPrefixCore names).length) ∧
    (∀ k, rfindSub sepStr (lcpFold names) = some k →
       (sepStr <+: (lcpFold names).drop k ∧
        ∀ j, k < j → ¬ sepStr <+: (lcpFold names).drop j) ∧
       trimAtLastSep (lcpFold names) =
         (if 0 < k then (lcpFold names).take (k + 3) else lcpFold names)) ∧
    (rfindSub sepStr (lcpFold names) = none →
       (∀ j, ¬ sepStr <+: (lcpFold names).drop j) ∧
       trimAtLastSep (lcpFold names) = lcpFold names) := by
  obtain ⟨m, ms, rfl⟩ : ∃ m ms, names = m :: ms := by
    cases names with
    | nil => exact absurd rfl hne
    | cons m ms => exact ⟨m, ms, rfl⟩
  refine ⟨fun n h => lcpFold_prefix_mem _ n h, fun t ht => prefix_lcpFold _ t hne ht,
    rfl, ?_, ?_, ?_⟩
  · intro h2
    have he : findCommonPrefixCore (m :: ms) =
        (if 3 < (trimAtLastSep (lcpFold (m :: ms))).length
         then trimAtLastSep (lcpFold (m :: ms)) else []) := rfl
    rw [he] at h2 ⊢
    by_cases h3 : 3 < (trimAtLastSep (lcpFold (m :: ms))).length
    · rw [if_pos h3]
      omega
    · rw [if_neg h3] at h2
      exact absurd rfl h2
  · intro k hk
    refine ⟨rfindSub_some sepStr (by decide) _ k hk, ?_⟩
    unfold trimAtLastSep
    rw [hk]
  · intro hk
    refine ⟨fun j => rfindSub_none sepStr (by decide) _ hk j, ?_⟩
    unfold trimAtLastSep
    rw [hk]

/-- Witness for `claim5_main` at the spec's own example prefix. -/
theorem claim5_witness :
    findCommonPrefixCore ["Blog - Part A".toList, "Blog - Part B".toList] = "Blog - ".toList ∧
    lcpFold ["Blog - Part A".toList, "Blog - Part B".toList] <+: "Blog - Part A".toList := by
  constructor
  · have h := (claim5_main ["Blog - Part A".toList, "Blog - Part B".toList] (by simp)).2.2.1
    rw [h]
    decide
  · exact (claim5_main ["Blog - Part A".toList, "Blog - Part B".toList] (by simp)).1 _
      (by simp)

/-! ## Claim C6 -/

/-- C6: for every non-empty list of names, the computation folds to the
longest string that is a literal suffix of every name (comparing from the
end), truncates it — whenever it contains `" - "` — to start at the first
occurrence, and returns the empty string whenever the result is at most
three characters long. -/
theorem claim6_main (names : List Str) (hne : names ≠ []) :
    (∀ n ∈ names, lcsFold names <:+ n) ∧
    (∀ t, (∀ n ∈ names, t <:+ n) → t <:+ lcsFold names) ∧
    findCommonSuffixCore names =
      (if 3 < (trimAtFirstSep (lcsFold names)).length
       then trimAtFirstSep (lcsFold names) else []) ∧
    (findCommonSuffixCore names ≠ [] → 4 ≤ (findCommonSuffixCore names).length) ∧
    (∀ k, findSub sepStr (lcsFold names) = some k →
       (sepStr <+: (lcsFold names).drop k ∧
        ∀ j, j < k → ¬ sepStr <+: (lcsFold names).drop j) ∧
       trimAtFirstSep (lcsFold names) = (lcsFold names).drop k) ∧
    (findSub sepStr (lcsFold names) = none →
       trimAtFirstSep (lcsFold names) = lcsFold names) := by
  obtain ⟨m, ms, rfl⟩ : ∃ m ms, names = m :: ms := by
    cases names with
    | nil => exact absurd rfl hne
    | cons m ms => exact ⟨m, ms, rfl⟩
  refine ⟨fun n h => lcsFold_suffix_mem _ n h, fun t ht => suffix_lcsFold _ t hne ht,
    rfl, ?_, ?_, ?_⟩
  · intro h2
    have he : findCommonSuffixCore (m :: ms) =
        (if 3 < (trimAtFirstSep (lcsFold (m :: ms))).length
         then trimAtFirstSep (lcsFold (m :: ms)) else []) := rfl
    rw [he] at h2 ⊢
    by_cases h3 : 3 < (trimAtFirstSep (lcsFold (m :: ms))).length
    · rw [if_pos h3]
      omega
    · rw [if_neg h3] at h2
      exact absurd rfl h2
  · intro k hk
    refine ⟨findSub_some sepStr _ k hk, ?_⟩
    unfold trimAtFirstSep
    rw [hk]
  · intro hk
    unfold trimAtFirstSep
    rw [hk]

/-- Witness for `claim6_main` at a concrete name list. -/
theorem claim6_witness :
    findCommonSuffixCore ["One - Done".toList, "Two - Done".toList] = " - Done".toList ∧
    lcsFold ["One - Done".toList, "Two - Done".toList] <:+ "Two - Done".toList := by
  constructor
  · have h := (claim6_main ["One - Done".toList, "Two - Done".toList] (by simp)).2.2.1
    rw [h]
    decide
  · exact (claim6_main ["One - Done".toList, "Two - Done".toList] (by simp)).1 _ (by simp)

/-! ## Claim C7 -/

/-- C7, as stated, is false: `clean_filename` removes every occurrence of
`.md` (Python `replace`), not just the trailing extension.  For the two
files `ax.md y.md` and `bz.md w.md` (no common prefix or suffix under
either reading) the code outputs `01 - ax y.md`, while the claim's
extension-stripping description predicts `01 - ax.md y.md`. -/
theorem claim7_counterexample :
    outputFilenames ["ax.md y.md".toList, "bz.md w.md".toList] =
      ["01 - ax y.md".toList, "02 - bz w.md".toList] ∧
    claimOutputFilenames ["ax.md y.md".toList, "bz.md w.md".toList] =
      ["01 - ax.md y.md".toList, "02 - bz.md w.md".toList] ∧
    ("01 - ax y.md".toList : Str) ≠ "01 - ax.md y.md".toList := by
  refine ⟨by decide, by decide, by decide⟩

/-- C7 (amended): the n-th output chapter filename (files in ascending
modification-time order) is the zero-padded two-digit number n, `" - "`,
and the cleaned name, where the cleaned name is the original filename
with every occurrence of the substring `.md` removed (not only the
extension), the detected common prefix removed when the name starts with
it, the detected common suffix removed when it ends with it, surrounding
whitespace trimmed, and `.md` re-appended. -/
theorem claim7_main (files : List Str) (i : Nat) (h : i < files.length) :
    (outputFilenames files).getD i [] =
      fmt2 (i + 1) ++ [' ', '-', ' '] ++
        cleanFilename (files.getD i []) (findCommonPrefixAll files) (findCommonSuffixAll files) ∧
    (outputFilenames files).length = files.length ∧
    (i + 1 < 100 → (fmt2 (i + 1)).length = 2) := by
  refine ⟨?_, ?_, fun hlt => fmt2_length (i + 1) hlt⟩
  · unfold outputFilenames
    simp [List.getD, List.getElem?_map, List.getElem?_range, h]
  · unfold outputFilenames
    simp

/-- Witness for `claim7_main`: a single file whose name contains `.md`
twice. -/
theorem claim7_witness :
    (outputFilenames ["a.md.md".toList]).getD 0 [] = "01 - a.md".toList ∧
    (outputFilenames ["a.md.md".toList]).length = 1 := by
  have h := claim7_main ["a.md.md".toList] 0 (by simp)
  refine ⟨?_, h.2.1⟩
  rw [h.1]
  decide

/-! ## Claim C8 -/

theorem collapseGo_cons_nl_ge (n : Nat) (rest : Str) (hn : 2 ≤ n) :
    collapseGo n ('\n' :: rest) = collapseGo n rest := by
  rw [collapseGo, if_pos rfl, if_pos hn]

theorem collapseGo_cons_nl_lt (n : Nat) (rest : Str) (hn : n < 2) :
    collapseGo n ('\n' :: rest) = '\n' :: collapseGo (n + 1) rest := by
  rw [collapseGo, if_pos rfl, if_neg (by omega)]

theorem collapseGo_cons_other (n : Nat) (c : Char) (rest : Str) (hc : ¬ c = '\n') :
    collapseGo n (c :: rest) = c :: collapseGo 0 rest := by
  rw [collapseGo, if_neg hc]

theorem prefix_head {x : Char} {xs l : Str} (h : x :: xs <+: l) : l.head? = some x := by
  obtain ⟨r, hr⟩ := h
  rw [← hr]
  rfl

/-- After two pending newlines the collapser never emits a newline
first. -/
theorem collapseGo_two_head : ∀ s : Str, (collapseGo 2 s).head? ≠ some '\n'
  | [] => by simp [collapseGo]
  | c :: rest => by
    by_cases hc : c = '\n'
    · subst hc
      rw [collapseGo_cons_nl_ge 2 rest (by omega)]
      exact collapseGo_two_head rest
    · rw [collapseGo_cons_other 2 c rest hc]
      simp [hc]

theorem collapseGo_one_not (s : Str) : ¬ (['\n', '\n'] <+: collapseGo 1 s) := by
  cases s with
  | nil => simp [collapseGo]
  | cons c rest =>
    by_cases hc : c = '\n'
    · subst hc
      rw [collapseGo_cons_nl_lt 1 rest (by omega)]
      intro h
      exact collapseGo_two_head rest (prefix_head (List.cons_prefix_cons.mp h).2)
    · rw [collapseGo_cons_other 1 c rest hc]
      intro h
      exact hc ((List.cons_prefix_cons.mp h).1).symm

theorem collapseGo_zero_not (s : Str) : ¬ (['\n', '\n', '\n'] <+: collapseGo 0 s) := by
  cases s with
  | nil => simp [collapseGo]
  | cons c rest =>
    by_cases hc : c = '\n'
    · subst hc
      rw [collapseGo_cons_nl_lt 0 rest (by omega)]
      intro h
      exact collapseGo_one_not rest (List.cons_prefix_cons.mp h).2
    · rw [collapseGo_cons_other 0 c rest hc]
      intro h
      exact hc ((List.cons_prefix_cons.mp h).1).symm

/-- The collapsed text never contains three consecutive newlines. -/
theorem collapseGo_noTriple : ∀ (s : Str) (n : Nat), ¬ (['\n', '\n', '\n'] <:+: collapseGo n s)
  | [], n => by simp [collapseGo]
  | c :: rest, n => by
    by_cases hc : c = '\n'
    · subst hc
      by_cases hn : 2 ≤ n
      · rw [collapseGo_cons_nl_ge n rest hn]
        exact collapseGo_noTriple rest n
      · rw [collapseGo_cons_nl_lt n rest (by omega)]
        intro h
        rcases List.infix_cons_iff.mp h with h | h
        · have h2 := (List.cons_prefix_cons.mp h).2
          have hn01 : n = 0 ∨ n = 1 := by omega
          rcases hn01 with rfl | rfl
          · exact collapseGo_one_not rest h2
          · exact collapseGo_two_head rest (prefix_head h2)
        · exact collapseGo_noTriple rest (n + 1) h
    · rw [collapseGo_cons_other n c rest hc]
      intro h
      rcases List.infix_cons_iff.mp h with h | h
      · exact hc ((List.cons_prefix_cons.mp h).1).symm
      · exact collapseGo_noTriple rest 0 h

theorem collapseGo_two_replicate : ∀ (j : Nat) (b : Str),
    collapseGo 2 (List.replicate j '\n' ++ b) = collapseGo 2 b
  | 0, b => by simp
  | j + 1, b => by
    rw [List.replicate_succ, List.cons_append, collapseGo_cons_nl_ge 2 _ (by omega)]
    exact collapseGo_two_replicate j b

theorem collapseGo_two_eq_zero (b : Str) (hb : b.head? ≠ some '\n') :
    collapseGo 2 b = collapseGo 0 b := by
  cases b with
  | nil => rfl
  | cons c rest =>
    have hc : ¬ c = '\n' := fun h => hb (by simp [h])
    rw [collapseGo_cons_other 2 c rest hc, collapseGo_cons_other 0 c rest hc]

theorem collapseGo_zero_run (k : Nat) (b : Str) (hk : 3 ≤ k) (hb : b.head? ≠ some '\n') :
    collapseGo 0 (List.replicate k '\n' ++ b) = '\n' :: '\n' :: collapseGo 0 b := by
  obtain ⟨j, rfl⟩ : ∃ j, k = j + 3 := ⟨k - 3, by omega⟩
  have e : List.replicate (j + 3) '\n' = '\n' :: '\n' :: '\n' :: List.replicate j '\n' := by
    rw [show j + 3 = j + 2 + 1 from rfl, List.replicate_succ,
      show j + 2 = j + 1 + 1 from rfl, List.replicate_succ, List.replicate_succ]
  rw [e, List.cons_append, List.cons_append, List.cons_append,
    collapseGo_cons_nl_lt 0 _ (by omega), collapseGo_cons_nl_lt 1 _ (by omega),
    collapseGo_cons_nl_ge 2 _ (by omega), collapseGo_two_replicate j b,
    collapseGo_two_eq_zero b hb]

/-- The run-collapsing behaviour of the scan: a run of at least three
newlines between a block not ending in a newline and a block not starting
with one collapses to exactly two newlines (one blank line). -/
theorem collapseGo_run : ∀ (a : Str) (n k : Nat) (b : Str), 3 ≤ k →
    b.head? ≠ some '\n' → a.getLast? ≠ some '\n' → (a = [] → n = 0) →
    collapseGo n (a ++ List.replicate k '\n' ++ b) =
      collapseGo n a ++ '\n' :: '\n' :: collapseGo 0 b
  | [], n, k, b, hk, hb, _, hn => by
    rw [hn rfl]
    simpa using collapseGo_zero_run k b hk hb
  | [c], n, k, b, hk, hb, ha, _ => by
    have hc : ¬ c = '\n' := fun h => ha (by simp [h])
    have e1 : ([c] ++ List.replicate k '\n' ++ b) = c :: (List.replicate k '\n' ++ b) := by
      simp
    rw [e1, collapseGo_cons_other n c _ hc, collapseGo_zero_run k b hk hb,
      collapseGo_cons_other n c [] hc]
    rfl
  | c :: d :: a3, n, k, b, hk, hb, ha, _ => by
    have ha2 : (d :: a3).getLast? ≠ some '\n' := by
      rwa [List.getLast?_cons_cons] at ha
    have hne : (d :: a3 : Str) ≠ [] := by simp
    have e1 : ((c :: d :: a3) ++ List.replicate k '\n' ++ b) =
        c :: ((d :: a3) ++ List.replicate k '\n' ++ b) := by simp
    by_cases hc : c = '\n'
    · subst hc
      by_cases hn2 : 2 ≤ n
      · rw [e1, collapseGo_cons_nl_ge n _ hn2, collapseGo_cons_nl_ge n _ hn2]
        exact collapseGo_run (d :: a3) n k b hk hb ha2 fun h => absurd h hne
      · rw [e1, collapseGo_cons_nl_lt n _ (by omega), collapseGo_cons_nl_lt n _ (by omega),
          collapseGo_run (d :: a3) (n + 1) k b hk hb ha2 fun h => absurd h hne]
        simp
    · rw [e1, collapseGo_cons_other n c _ hc, collapseGo_cons_other n c _ hc,
        collapseGo_run (d :: a3) 0 k b hk hb ha2 fun h => absurd h hne]
      simp

theorem head?_dropWhile_not : ∀ (l : Str) (p : Char → Bool) (c : Char),
    (l.dropWhile p).head? = some c → p c = false := by
  intro l
  induction l with
  | nil => intro p c h; simp [List.dropWhile] at h
  | cons a rest ih =>
    intro p c h
    rw [List.dropWhile_cons] at h
    by_cases hp : p a
    · rw [if_pos hp] at h
      exact ih p c h
    · rw [if_neg hp] at h
      simp at h
      subst h
      simpa using hp

theorem pyRstrip_pre (s : Str) : pyRstrip s <+: s := by
  have h := List.dropWhile_suffix (l := s.reverse) isPySpace
  have h2 := List.reverse_prefix.mpr h
  simpa [pyRstrip] using h2

theorem pyRstrip_getLast (s : Str) (c : Char) (h : (pyRstrip s).getLast? = some c) :
    isPySpace c = false := by
  rw [pyRstrip, List.getLast?_reverse] at h
  exact head?_dropWhile_not _ _ _ h

/-- C8: in the final pass, a run of at least three newlines (two or more
blank lines) between content blocks collapses to exactly one blank line;
the finished text never contains three consecutive newlines (at most one
blank line separates blocks), ends with exactly one trailing newline, and
carries no trailing whitespace before it; and a chapter with four blank
lines between two paragraphs cleans to exactly one blank line between
them. -/
theorem claim8_main :
    (∀ (a : Str) (k : Nat) (b : Str), 3 ≤ k → b.head? ≠ some '\n' →
       a.getLast? ≠ some '\n' →
       collapseNL (a ++ List.replicate k '\n' ++ b) =
         collapseNL a ++ '\n' :: '\n' :: collapseNL b) ∧
    (∀ s, ¬ (['\n', '\n', '\n'] <:+: finalizeContent s)) ∧
    (∀ s, (finalizeContent s).getLast? = some '\n') ∧
    (∀ s c, (finalizeContent s).dropLast.getLast? = some c → isPySpace c = false) ∧
    cleanContent dlOk "# T\nPara one.\n\n\n\n\nPara two.\n".toList "Title".toList =
      "# Title\nPara one.\n\nPara two.\n".toList := by
  refine ⟨fun a k b hk hb ha => ?_, fun s h => ?_, fun s => ?_, fun s c h => ?_, by decide⟩
  · exact collapseGo_run a 0 k b hk hb ha fun _ => rfl
  · rw [finalizeContent] at h
    have h2 : (['\n', '\n', '\n'] : Str) <:+:
        ('\n' :: (pyRstrip (collapseNL s)).reverse) := by
      have := List.reverse_infix.mpr h
      simpa using this
    rcases List.infix_cons_iff.mp h2 with h3 | h3
    · have h4 := (List.cons_prefix_cons.mp h3).2
      have h5 := prefix_head h4
      rw [List.head?_reverse] at h5
      have := pyRstrip_getLast (collapseNL s) '\n' h5
      simp [isPySpace] at this
    · have h4 : (['\n', '\n', '\n'] : Str) <:+: pyRstrip (collapseNL s) := by
        have h5 : (['\n', '\n', '\n'] : Str).reverse <:+:
            (pyRstrip (collapseNL s)).reverse := by simpa using h3
        exact List.reverse_infix.mp h5
      have h5 := h4.trans (pyRstrip_pre (collapseNL s)).isInfix
      exact collapseGo_noTriple s 0 h5
  · rw [finalizeContent, List.getLast?_append_of_ne_nil _ (by simp)]
    rfl
  · rw [finalizeContent, List.dropLast_concat] at h
    exact pyRstrip_getLast _ c h

/-- Witness for `claim8_main` at concrete inputs. -/
theorem claim8_witness :
    collapseNL ("a".toList ++ List.replicate 5 '\n' ++ "b".toList) =
      collapseNL "a".toList ++ '\n' :: '\n' :: collapseNL "b".toList ∧
    (finalizeContent "x\n\n\n\n".toList).getLast? = some '\n' := by
  exact ⟨claim8_main.1 "a".toList 5 "b".toList (by omega) (by decide) (by decide),
    claim8_main.2.2.1 _⟩

/-! ## Claim C9 -/

/-- C9: the cover is selected by the first applicable rule, in order: a
file literally named `cover.<ext>` present in the images directory (the
first probe extension that hits wins); else the first truthy image name
referenced in any chapter, scanning chapters in chapter order (an empty
name, as produced by `![a]()` or `![x](images/)`, counts as no find and
the scan continues); else the alphabetically first image file present in
the images directory; and when no rule yields a name the book gets no
cover.  In particular, a three-chapter book with no `cover.*` image takes
its cover from the first image referenced in chapter 1 when chapter 1
references one, and a first chapter whose only image markup is `![a]()`
is skipped in favour of a later chapter's image. -/
theorem claim9_main (files chapters : List Str) :
    (∀ e, coverExts.find? (fun e2 => files.contains ("cover".toList ++ e2)) = some e →
       selectCover files chapters = some ("cover".toList ++ e)) ∧
    (coverExts.find? (fun e2 => files.contains ("cover".toList ++ e2)) = none →
       ∀ img, chapters.findSome? findFirstImageTruthy = some img →
         selectCover files chapters = some img) ∧
    (coverExts.find? (fun e2 => files.contains ("cover".toList ++ e2)) = none →
       chapters.findSome? findFirstImageTruthy = none →
       selectCover files chapters =
         (sortStrs (files.filter fun f =>
            epubImgExts.contains (lowerStr (splitExtExt f)))).head?) ∧
    (coverExts.find? (fun e2 => files.contains ("cover".toList ++ e2)) = none →
       chapters.findSome? findFirstImageTruthy = none →
       files.filter (fun f => epubImgExts.contains (lowerStr (splitExtExt f))) = [] →
       selectCover files chapters = none) ∧
    (∀ c, findFirstImage c = some [] → findFirstImageTruthy c = none) ∧
    (∀ c img, findFirstImage c = some img → img ≠ [] → findFirstImageTruthy c = some img) ∧
    (selectCover ["pic.png".toList]
       ["# One\n![x](images/pic.png)\n".toList, "# Two\n".toList, "# Three\n".toList] =
         some "pic.png".toList ∧
     findFirstImage "# One\n![x](images/pic.png)\n".toList = some "pic.png".toList ∧
     selectCover ["x.png".toList]
       ["# One\n![a]()\n".toList, "# Two\n![b](images/x.png)\n".toList] =
         some "x.png".toList) := by
  refine ⟨fun e he => ?_, fun hn img hi => ?_, fun hn hi => ?_, fun hn hi hf => ?_,
    fun c hc => ?_, fun c img hc hne => ?_, by decide, by decide, by decide⟩
  · simp only [selectCover, he]
  · simp only [selectCover, hn, hi]
  · simp only [selectCover, hn, hi]
  · simp only [selectCover, hn, hi, hf]
    rfl
  · simp only [findFirstImageTruthy, hc, if_true]
  · simp only [findFirstImageTruthy, hc]
    rw [if_neg hne]

/-- Witness for `claim9_main` at concrete directories. -/
theorem claim9_witness :
    selectCover ["cover.png".toList, "zebra.jpg".toList] ["# C1\n".toList] =
      some "cover.png".toList ∧
    selectCover ["b.png".toList, "a.jpg".toList] ["# C1\n".toList] =
      some "a.jpg".toList := by
  constructor
  · exact (claim9_main ["cover.png".toList, "zebra.jpg".toList] ["# C1\n".toList]).1
      ".png".toList (by decide)
  · have h := (claim9_main ["b.png".toList, "a.jpg".toList] ["# C1\n".toList]).2.2.1
      (by decide) (by decide)
    rw [h]
    decide

end MDClean
